import Mathlib

/-!
Verification of the shamo parametric uncertainty-quantification pipeline.

This file is a shallow embedding, in Lean 4, of the core of the `shamo`
repository: the distribution model (`shamo/core/distributions`), the
parameter-space sampler (`ProbParamABC._gen_params`), the sub-problem
dispatcher (`ProbParamABC._solve_sub_probs`), the parametric solution
aggregators (`ParametricForwardSolution.finalize` and
`SolParamEEGLeadfield.finalize`), the surrogate fitter
(`SurrABC.fit` / `SurrABC.predict`), the sensitivity-analysis cache
(`SurrScalar.gen_sobol`), and the spatial-thinning utility
(`shamo/utils/mesh.py::get_equally_spaced_elements`).

Conventions of the embedding:
- Python floats are modelled as rationals; numpy arrays as lists.
- Euclidean distances are compared through their squares, which is exact
  for the comparisons the code performs (both sides are nonnegative).
- Fallible Python code is modelled with `Except PyErr`; the error
  constructors mirror the exception classes the code can raise.
- Effectful steps (disk scans, file writes, solver runs, surrogate fits)
  are recorded in explicit event traces so that statements such as
  "the second call performs no re-fit" can be stated precisely.
- External libraries (chaospy, SALib, sklearn) are embedded from their
  documented deterministic behaviour where the repository relies on it
  (the Halton/van der Corput sequence, the per-column fit of
  MultiOutputRegressor); purely numeric results of external solvers and
  regressors are taken as explicit function parameters.
-/

namespace Shamo

/-! ## Distribution model (`shamo/core/distributions`) -/

/-- The closed set of distribution classes: `DistConstant`, `DistUniform`,
`DistNormal`, `DistTruncNormal` (all subclasses of `DistABC`). -/
inductive DistABC where
  | constant (val : ℚ)
  | uniform (lower upper : ℚ)
  | normal (mu sigma : ℚ)
  | truncNormal (mu sigma lower upper : ℚ)
deriving DecidableEq

/-- The `dist_type` tag stored by each class constructor. -/
def DistABC.dist_type : DistABC → String
  | .constant _ => "constant"
  | .uniform _ _ => "uniform"
  | .normal _ _ => "normal"
  | .truncNormal _ _ _ _ => "trunc_normal"

/-- A `chaospy.Uniform(lower, upper)` object. -/
structure ChaosUniform where
  lower : ℚ
  upper : ℚ
deriving DecidableEq

/-- The `uniform_dist` property. `DistConstant.uniform_dist` returns `None`
(modelled as `none`); the other classes return a `chaospy.Uniform`:
`DistUniform` returns itself, `DistNormal` returns
`Uniform(mu - 3 sigma, mu + 3 sigma)`, `DistTruncNormal` returns
`Uniform(lower, upper)`. -/
def DistABC.uniform_dist : DistABC → Option ChaosUniform
  | .constant _ => none
  | .uniform l u => some ⟨l, u⟩
  | .normal mu sigma => some ⟨mu - 3 * sigma, mu + 3 * sigma⟩
  | .truncNormal _ _ l u => some ⟨l, u⟩

/-- The `salib_name` property of each distribution class. -/
def DistABC.salib_name : DistABC → String
  | .constant _ => ""
  | .uniform _ _ => "unif"
  | .normal _ _ => "norm"
  | .truncNormal _ _ _ _ => "truncnorm"

/-- The `salib_bounds` property of each distribution class. -/
def DistABC.salib_bounds : DistABC → List ℚ
  | .constant _ => []
  | .uniform l u => [l, u]
  | .normal m s => [m, s]
  | .truncNormal m s l u => [l, u, m, s]

/-- Whether a distribution is the constant variant
(`dist_type == DistABC.TYPE_CONSTANT` in the code). -/
def DistABC.isConstant : DistABC → Bool
  | .constant _ => true
  | _ => false

/-- Python exception classes raised by the embedded code. -/
inductive PyErr where
  | runtimeErr (msg : String)
  | typeErr
  | attributeErr
  | indexErr
  | fileNotFoundErr
deriving DecidableEq

/-! ## Parameter-space sampler (`ProbParamABC._gen_params`) -/

/-- One item of the `CompParamTissueProp` mapping: a tissue name bound to a
distribution and an optional field reference (the `p = [dist, ref]` pair of
the code). -/
structure ParamEntry where
  tissue : String
  dist : DistABC
  formula : Option String
deriving DecidableEq

/-- `CompParamTissueProp.to_param`: partition the items into the fixed list
(constant distributions, keeping `p[0].val`) and the varying list (all other
distributions), preserving iteration order within each group and prefixing
each tissue name with `name + "."` when `name` is not empty. -/
def toParam (name : String) :
    List ParamEntry →
      List (String × ℚ × Option String) × List (String × DistABC × Option String)
  | [] => ([], [])
  | e :: rest =>
    let t := if name ≠ "" then name ++ "." ++ e.tissue else e.tissue
    let fv := toParam name rest
    match e.dist with
    | .constant val => ((t, val, e.formula) :: fv.1, fv.2)
    | d => (fv.1, (t, d, e.formula) :: fv.2)

/-- A character matched by `\w` for the ASCII names used by the code. -/
def isWordChar (c : Char) : Bool := c.isAlphanum || c = '_'

/-- `ProbParamABC._split_prop_name`: match a parameter name against the
regular expression anchored as letters, a dot, then word characters, and
return the two groups. Returns `none` when the name does not match, in which
case the code raises `AttributeError` on the failed match object. -/
def splitPropName (s : String) : Option (String × String) :=
  let cs := s.toList
  let prop := cs.takeWhile Char.isAlpha
  let rest := cs.dropWhile Char.isAlpha
  match rest with
  | '.' :: tail =>
    if prop ≠ [] ∧ tail ≠ [] ∧ tail.all isWordChar then
      some (String.mk prop, String.mk tail)
    else none
  | _ => none

/-- Trial-division primality test (the sieve of `chaospy.create_primes`
selects exactly the primes). -/
def natIsPrime (n : ℕ) : Bool :=
  decide (2 ≤ n) && (List.range (n - 2)).all fun m => decide (n % (m + 2) ≠ 0)

/-- The first `j` primes, used by chaospy as the per-dimension bases of the
Halton sequence. -/
def firstPrimes (j : ℕ) : List ℕ :=
  ((List.range (j * j + 4)).filter natIsPrime).take j

/-- Maximum of a list of naturals; chaospy uses `max(primes)` as the default
burn-in of the Halton sequence. -/
def listMax (l : List ℕ) : ℕ := l.foldl max 0

/-- Radical-inverse (van der Corput) value of `n` in base `b`, computed with
structural fuel so that concrete values reduce definitionally. This is the
value `chaospy.create_van_der_corput_samples` assigns to index `n - 1`. -/
def vdcAux : ℕ → ℕ → ℕ → ℚ
  | 0, _, _ => 0
  | _, _, 0 => 0
  | fuel + 1, b, n + 1 =>
    if b ≤ 1 then 0
    else (((n + 1) % b : ℕ) : ℚ) / (b : ℚ) + vdcAux fuel b ((n + 1) / b) / (b : ℚ)

/-- Radical inverse of `n` in base `b`; fuel `n` suffices because the
argument strictly decreases under division by `b ≥ 2`. -/
def vdc (b n : ℕ) : ℚ := vdcAux n b n

/-- Inverse CDF of `chaospy.Uniform`, applied dimension-wise by
`chaospy.J(...).sample`. -/
def ChaosUniform.inv (d : ChaosUniform) (q : ℚ) : ℚ :=
  d.lower + q * (d.upper - d.lower)

/-- The design matrix drawn by `_gen_params`: sample the joint distribution
`chaos.J(*uniform_dists)` with `rule="halton"` for `n_evals + skip` points
(one row per varying dimension), then discard the first `skip` columns.
Row `i` at draw index `t` is the van der Corput value of
`t + burnin + 1` in the `i`-th prime base, mapped through the inverse CDF of
the `i`-th bounding uniform; the burn-in is the largest base. -/
def drawX (ranges : List ChaosUniform) (n_evals skip : ℕ) : List (List ℚ) :=
  let primes := firstPrimes ranges.length
  ((List.range ranges.length).map fun i =>
    (List.range (n_evals + skip)).map fun t =>
      ChaosUniform.inv (ranges.getD i ⟨0, 0⟩)
        (vdc (primes.getD i 2) (t + listMax primes + 1))).map (List.drop skip)

/-- Sequence a list of options, as the construction `chaos.J(*dists)` needs
every marginal to be an actual distribution. -/
def seqOption {α : Type} : List (Option α) → Option (List α)
  | [] => some []
  | none :: _ => none
  | some a :: rest => (seqOption rest).map (a :: ·)

/-- The marginals of the joint sampling distribution built by `_gen_params`:
the `uniform_dist` of each varying parameter, in order. `none` when one of
them has no bounding uniform (a constant reached the varying list, on which
`chaos.J` would fail). -/
def jointRanges (items : List ParamEntry) : Option (List ChaosUniform) :=
  seqOption (((toParam "sigmas" items).2).map fun e => e.2.1.uniform_dist)

/-- One entry of the nested output dict of `_gen_params`:
property group, parameter name, value array, optional field reference. -/
def OutEntry : Type := String × String × List ℚ × Option String

/-- Build the varying part of the output: entry `i` carries row `i` of the
design matrix. An ill-formed name raises `AttributeError`. -/
def mkVaryOut :
    List ((String × DistABC × Option String) × List ℚ) → Except PyErr (List OutEntry)
  | [] => .ok []
  | ((nm, _, ref), col) :: rest =>
    match splitPropName nm with
    | none => .error .attributeErr
    | some pq => (mkVaryOut rest).map fun r => (pq.1, pq.2, col, ref) :: r

/-- Build the fixed part of the output: each constant parameter gets
`np.ones((x.shape[1],)) * val`, an array of `nCols` copies of its value. -/
def mkFixedOut (nCols : ℕ) :
    List (String × ℚ × Option String) → Except PyErr (List OutEntry)
  | [] => .ok []
  | (nm, v, ref) :: rest =>
    match splitPropName nm with
    | none => .error .attributeErr
    | some pq => (mkFixedOut nCols rest).map fun r =>
        (pq.1, pq.2, List.replicate nCols v, ref) :: r

/-- The error message of the guard of `_gen_params` (inner quotes of the
original message elided). -/
def noVaryingMsg : String :=
  "No varying parameter was found. Use ProbEEGLeadfield instead."

/-- `ProbParamABC._gen_params`, instantiated with the
`_gen_fixed_varying` of `ProbParamEEGLeadfield`
(`self.sigmas.to_param("sigmas")`): split the parameters into fixed and
varying, fail with `RuntimeError` when no parameter varies, otherwise build
the joint Halton distribution over the bounding uniforms of the varying
parameters, draw `n_evals + skip` points, drop the first `skip`, and emit
one array per parameter (quasi-random draws for varying parameters,
constant arrays for fixed ones). -/
def genParams (items : List ParamEntry) (n_evals skip : ℕ) :
    Except PyErr (List OutEntry) :=
  let fv := toParam "sigmas" items
  if fv.2.isEmpty then .error (.runtimeErr noVaryingMsg)
  else
    match jointRanges items with
    | none => .error .typeErr
    | some ranges =>
      let x := drawX ranges n_evals skip
      let nCols := (x.headD []).length
      match mkVaryOut (fv.2.zip x), mkFixedOut nCols fv.1 with
      | .ok v, .ok f => .ok (v ++ f)
      | .error e, _ => .error e
      | .ok _, .error e => .error e

/-! ## Spatial thinning (`shamo/utils/mesh.py::get_equally_spaced_elements`) -/

/-- A mesh element: its tag and its barycentre coordinates. -/
structure MeshPt where
  tag : ℕ
  coord : List ℚ
deriving DecidableEq

/-- Squared Euclidean distance between two coordinate vectors. The code
compares `scipy.spatial.distance.cdist` values against the separation `d`;
since both sides are nonnegative, comparing squares against `d ^ 2` is the
same comparison, stated exactly over the rationals. -/
def sqDist (a b : List ℚ) : ℚ := ((a.zip b).map fun p => (p.1 - p.2) ^ 2).sum

/-- Leftmost minimiser of `f` over `h :: t`, as `np.argmin` returns the first
index attaining the minimum of the remaining distances. -/
def pickMinBy (f : MeshPt → ℚ) (h : MeshPt) (t : List MeshPt) : MeshPt :=
  t.foldl (fun best p => if f p < f best then p else best) h

/-- The body of the while loop of `get_equally_spaced_elements`: repeatedly
delete from the candidate array every element whose distance to the current
point is strictly below the threshold (the current point itself is at
distance zero, so it is always deleted), then accept the nearest surviving
candidate as the new current point. `d2` is the squared separation. The fuel
argument only bounds the recursion; each pass through the loop removes at
least the current point from the candidates, so any fuel of at least the
candidate count yields the exact loop result. -/
def thinAux (d2 : ℚ) : ℕ → List ℚ → List MeshPt → List MeshPt → List MeshPt
  | 0, _, _, acc => acc.reverse
  | fuel + 1, current, all, acc =>
    match all.filter fun p => ¬ sqDist current p.coord < d2 with
    | [] => acc.reverse
    | h :: t =>
      thinAux d2 fuel (pickMinBy (fun p => sqDist current p.coord) h t).coord
        (h :: t) (pickMinBy (fun p => sqDist current p.coord) h t :: acc)

/-- `get_equally_spaced_elements`: seed the kept list with the first element,
then run the greedy thinning loop over a copy of the full input (which still
contains the first element; the first deletion pass removes it). `d2` is the
square of the `distance` argument. -/
def getEquallySpacedElements (pts : List MeshPt) (d2 : ℚ) : List MeshPt :=
  match pts with
  | [] => []
  | p :: _ => thinAux d2 pts.length p.coord pts [p]

/-! ## Surrogate fitter (`shamo/core/surrogate/abc.py`) -/

/-- The anisotropic Matern covariance factor: one length scale per input
dimension and a smoothness parameter. -/
structure MaternKernel where
  length_scale : List ℚ
  nu : ℚ
deriving DecidableEq

/-- The kernel passed to every regressor:
`ConstantKernel() * Matern(length_scale=[1.0] * len(params), nu=2.5)` by
default. -/
structure KernelSpec where
  const : ℚ
  matern : MaternKernel
deriving DecidableEq

/-- The default kernel built by `SurrABC.fit` for `nParams` input
dimensions. -/
def defaultKernel (nParams : ℕ) : KernelSpec :=
  ⟨1, ⟨List.replicate nParams 1, 5 / 2⟩⟩

/-- A numpy array as `sklearn` sees it: one- or two-dimensional. -/
inductive NpArr where
  | vec (v : List ℚ)
  | mat (rows : List (List ℚ))
deriving DecidableEq

/-- Column count (`y.shape[1]`) of a two-dimensional array. -/
def NpArr.ncols : NpArr → ℕ
  | .vec _ => 0
  | .mat rows => (rows.headD []).length

/-- Column `c` of a row-major matrix. -/
def colOf (rows : List (List ℚ)) (c : ℕ) : List ℚ :=
  rows.map fun row => row.getD c 0

/-- A fitted `GaussianProcessRegressor`: the record of everything
`SurrABC.fit` hands to sklearn, including the training targets the
estimator was fitted on. -/
structure GPR where
  kernel : KernelSpec
  n_restarts_optimizer : ℕ
  random_state : ℕ
  normalize_y : Bool
  alpha : ℚ
  train_x : List (List ℚ)
  train_y : NpArr
deriving DecidableEq

/-- The regression object `fit` pickles: either a single
`GaussianProcessRegressor`, or a `MultiOutputRegressor` holding one
independently fitted single-output regressor per target column. -/
inductive Regressor where
  | single (gp : GPR)
  | multi (estimators : List GPR)
deriving DecidableEq

/-- `SurrABC.fit` (lines 148 onward): when the target array is
two-dimensional with more than one column, fit a `MultiOutputRegressor`
(which fits one clone of the base regressor per target column, each on that
column alone); otherwise fit a single `GaussianProcessRegressor` on the
whole target. -/
def SurrFit (kernel : KernelSpec) (nro rs : ℕ) (alpha : ℚ)
    (x : List (List ℚ)) (y : NpArr) : Regressor :=
  match y with
  | .mat rows =>
    if 1 < (rows.headD []).length then
      .multi ((List.range (rows.headD []).length).map fun c =>
        ⟨kernel, nro, rs, true, alpha, x, .vec (colOf rows c)⟩)
    else .single ⟨kernel, nro, rs, true, alpha, x, .mat rows⟩
  | .vec v => .single ⟨kernel, nro, rs, true, alpha, x, .vec v⟩

/-- `SurrABC.predict`: a `MultiOutputRegressor` cannot forward
`return_std=True` to its estimators, so the standard deviation comes back as
`None`; a single regressor returns both the means and the standard
deviations. The numeric prediction of one fitted regressor at one query
point is external sklearn behaviour and is taken as the function parameters
`predMean` and `predStd`. -/
def SurrPredict (predMean : GPR → List ℚ → ℚ) (predStd : GPR → List ℚ → ℚ)
    (r : Regressor) (x : List (List ℚ)) : List (List ℚ) × Option (List ℚ) :=
  match r with
  | .multi gps => (x.map fun q => gps.map fun g => predMean g q, none)
  | .single g => (x.map fun q => [predMean g q], some (x.map fun q => predStd g q))

/-! ## Sensitivity cache (`shamo/core/surrogate/scalar.py`) -/

/-- The indices dictionary `gen_sobol` builds and stores in
`<name>_sobol.json`: parameter names plus first-, second- and total-order
Sobol values with their confidence bounds. -/
structure SobolIndices where
  params : List String
  s1_val : List ℚ
  s1_conf : List ℚ
  s2_val : List (List ℚ)
  s2_conf : List (List ℚ)
  st_val : List ℚ
  st_conf : List ℚ
deriving DecidableEq

/-- The raw output of `SALib.analyze.sobol.analyze`, an external numeric
computation the embedding takes as given. -/
structure SalibSobolRes where
  s1 : List ℚ
  s1_conf : List ℚ
  s2 : List (List ℚ)
  s2_conf : List (List ℚ)
  st : List ℚ
  st_conf : List ℚ
deriving DecidableEq

/-- The state of a `SurrScalar` object: its parameter list, its
`is_sobol_available` flag, and the contents of its sobol JSON file when that
file exists on disk. -/
structure SurrScalarState where
  params : List (String × DistABC)
  is_sobol_available : Bool
  sobolFile : Option SobolIndices
deriving DecidableEq

/-- `SurrScalar.get_sobol`: when the flag is set, read and return the stored
indices (a missing file would raise `FileNotFoundError`); otherwise return
`None`. -/
def getSobol (s : SurrScalarState) : Except PyErr (Option SobolIndices) :=
  if s.is_sobol_available then
    match s.sobolFile with
    | some d => .ok (some d)
    | none => .error .fileNotFoundErr
  else .ok none

/-- The value `gen_sobol` returns: either an indices dictionary, or the
imported `SALib.analyze.sobol` module object (which is what the bare name
`sobol` denotes inside `gen_sobol`). -/
inductive GenSobolRet where
  | dict (d : SobolIndices)
  | salibSobolModule
deriving DecidableEq

/-- The expensive steps of a fresh Sobol computation, recorded as events. -/
inductive SobolEv where
  | saltelliSample
  | predictQuery
  | sobolAnalyze
  | wroteSobolFile
deriving DecidableEq

/-- `SurrScalar.gen_sobol`: if indices were already computed, return
immediately (the source line reads `return sobol`, the module, not the
`indices` dictionary it just loaded); otherwise build the SALib problem,
draw a Saltelli sample, predict with the surrogate, analyze, store the
indices dictionary, set the flag, save, and return the dictionary. The
numeric result of the analysis is the external parameter `salib`. -/
def genSobol (s : SurrScalarState) (salib : SalibSobolRes)
    (n n_resamples : ℕ) (conf_level : ℚ) :
    Except PyErr (GenSobolRet × SurrScalarState × List SobolEv) :=
  match getSobol s with
  | .error e => .error e
  | .ok (some _) => .ok (.salibSobolModule, s, [])
  | .ok none =>
    let names := s.params.map (·.1)
    let indices : SobolIndices :=
      ⟨names, salib.s1, salib.s1_conf, salib.s2, salib.s2_conf,
        salib.st, salib.st_conf⟩
    .ok (.dict indices,
      { s with is_sobol_available := true, sobolFile := some indices },
      [.saltelliSample, .predictQuery, .sobolAnalyze, .wroteSobolFile])

/-! ## Aggregators -/

/-- Insert a string into a lexicographically sorted list. -/
def insertSorted (x : String) : List String → List String
  | [] => [x]
  | y :: ys => if x ≤ y then x :: y :: ys else y :: insertSorted x ys

/-- The Python builtin `sorted` on a list of path strings (insertion sort;
the zero-padded sub-solution names are pairwise distinct, so stability is
irrelevant here). -/
def sortStrs : List String → List String
  | [] => []
  | x :: xs => insertSorted x (sortStrs xs)

/-- A directory entry as `Path.iterdir` yields it: its final name and
whether it is a directory. -/
structure FsEntry where
  entryName : String
  isDir : Bool
deriving DecidableEq

/-- Index of the last dot of a character list, if any. -/
def lastDotIdx (cs : List Char) : Option ℕ :=
  match cs.reverse.findIdx? (· = '.') with
  | none => none
  | some k => some (cs.length - 1 - k)

/-- `pathlib` suffix of a name: the part from the last dot on, unless the
dot is the first or the last character. -/
def pathSfx (s : String) : String :=
  let cs := s.toList
  match lastDotIdx cs with
  | none => ""
  | some i => if 0 < i ∧ i + 1 < cs.length then String.mk (cs.drop i) else ""

/-- Unanchored match of a name against the pattern of
`ParametricForwardSolution.finalize`: the literal `sol_` followed by eight
digits (`re.match` anchors at the start only, so longer names also
match). -/
def matchesSolName (s : String) : Bool :=
  let cs := s.toList
  decide (12 ≤ cs.length) && decide (cs.take 4 = ['s', 'o', 'l', '_'])
    && ((cs.drop 4).take 8).all Char.isDigit

/-- Match of a name against the anchored pattern of
`SolParamABC.get_sub_file`: at least one leading character, an underscore,
then exactly eight digits ending the name. -/
def matchesSubName (s : String) : Bool :=
  let cs := s.toList
  decide (10 ≤ cs.length) && ((cs.drop (cs.length - 8)).all Char.isDigit)
    && decide (cs.getD (cs.length - 9) ' ' = '_')

/-- What `finalize` reads from one persisted sub-solution. -/
structure SubSol where
  shape : List ℕ
  sensors : List String
  elements_path : String
deriving DecidableEq

/-- The persisted state of a `ParametricForwardSolution`. -/
structure PFSol where
  name : String
  solution_paths : List String
  shape : List ℕ
  sensors : List String
  elements_path : Option String
  is_finalized : Bool
deriving DecidableEq

/-- The observable side effects of `ParametricForwardSolution.finalize`. -/
inductive FinEv where
  | scannedDir
  | deletedPy (name : String)
  | copiedElements (src dst : String)
  | unlinkedElements (path : String)
  | savedSub (path : String)
  | fitSurrogate
  | savedSelf
deriving DecidableEq

/-- `ParametricForwardSolution.finalize`: return unchanged at once when the
solution is already finalized; otherwise scan the directory for sub-solution
entries, fail with `RuntimeError("No sub-solution found.")` when none match
(before any state change), then sort the paths, optionally delete the
deferred-mode PY files, copy shape and sensor ordering from sub-solution 0,
relocate the shared elements file to the parent and rewrite every
sub-solution reference, fit the surrogate model, set the flag and save.
`disk` maps a sub-solution path to its persisted record. -/
def pfsFinalize (s : PFSol) (dir : List FsEntry) (disk : String → SubSol)
    (clean : Bool) : Except PyErr (PFSol × List FinEv) :=
  if s.is_finalized then .ok (s, [])
  else
    let subPaths := (dir.filter fun e => e.isDir && matchesSolName e.entryName).map
      fun e => e.entryName ++ "/" ++ e.entryName ++ ".json"
    if subPaths.isEmpty then .error (.runtimeErr "No sub-solution found.")
    else
      let sorted := sortStrs subPaths
      let cleanEv := if clean then
          (dir.filter fun e => pathSfx e.entryName = ".py").map
            fun e => FinEv.deletedPy e.entryName
        else []
      let sols := sorted.map disk
      let s0 := sols.headD ⟨[], [], ""⟩
      let elems := s.name ++ "_elements.npz"
      .ok
        ({ s with
            solution_paths := sorted
            shape := s0.shape
            sensors := s0.sensors
            elements_path := some elems
            is_finalized := true },
          [FinEv.scannedDir] ++ cleanEv
            ++ [FinEv.copiedElements s0.elements_path elems]
            ++ (sorted.flatMap fun p =>
                  [FinEv.unlinkedElements (disk p).elements_path, FinEv.savedSub p])
            ++ [FinEv.fitSurrogate, FinEv.savedSelf])

/-- The persisted state of a `SolParamEEGLeadfield` (the fields `finalize`
touches). This class carries no finalized flag at all. -/
structure EegSol where
  name : String
  shape : List ℕ
  sensors : List String
  sub_json_paths : List String
deriving DecidableEq

/-- `SolParamABC.get_sub_file`: the sorted relative paths of the matching
entries. The source tests `p.is_dir and re.match(...)` without calling
`is_dir`, so the bound method object is always truthy and only the name
pattern filters. -/
def getSubFile (dir : List FsEntry) (sfx : String) : List String :=
  sortStrs ((dir.filter fun e => matchesSubName e.entryName).map
    fun e => e.entryName ++ "/" ++ e.entryName ++ sfx)

/-- `SolParamEEGLeadfield.finalize`: collect the sub-solution JSON paths,
load them all, then read shape and sensors from `sub_sols[0]` and save. With
zero matching entries the indexing raises `IndexError` (there is no
dedicated no-sub-solution check in this class). -/
def eegFinalize (s : EegSol) (dir : List FsEntry) (disk : String → SubSol) :
    Except PyErr EegSol :=
  let subPaths := getSubFile dir ".json"
  let subSols := subPaths.map disk
  match subSols with
  | [] => .error .indexErr
  | s0 :: _ =>
    .ok { s with sub_json_paths := subPaths, shape := s0.shape, sensors := s0.sensors }

/-! ## Sub-problem dispatcher (`ProbParamABC._solve_sub_probs`) -/

/-- The accepted execution-mode strings. -/
def METHOD_SEQ : String := "sequential"

/-- The multiprocessing execution mode. -/
def METHOD_MUL : String := "multiprocessing"

/-- The deferred execution mode the docstring documents. -/
def METHOD_JOB : String := "job"

/-- Zero-padded eight-digit index, the Python format spec `08d`. -/
def zeroPad8 (i : ℕ) : String :=
  let s := toString i
  String.mk (List.replicate (8 - s.length) '0') ++ s

/-- The name given to sub-problem `i` of solution `solName`. -/
def subProbName (solName : String) (i : ℕ) : String :=
  solName ++ "_" ++ zeroPad8 i

/-- The observable actions of `_solve_sub_probs`. -/
inductive DispatchEv where
  | solved (name : String)
  | finalized
  | wrotePy (file : String)
deriving DecidableEq

/-- `ProbParamABC._solve_sub_probs` as its action trace: solve every
sub-problem in order and finalize when the method string equals
`"sequential"`; solve across a pool and finalize when it equals
`"multiprocessing"`; in every other case fall through to the `else` branch,
which only writes one PY work-descriptor file per sub-problem, solves
nothing, never finalizes and raises no error. -/
def solveSubProbs (solName : String) (nSub : ℕ) (method : String) :
    List DispatchEv :=
  if method = METHOD_SEQ then
    ((List.range nSub).map fun i => .solved (subProbName solName i)) ++ [.finalized]
  else if method = METHOD_MUL then
    ((List.range nSub).map fun i => .solved (subProbName solName i)) ++ [.finalized]
  else
    (List.range nSub).map fun i => .wrotePy (subProbName solName i ++ ".py")

/-! ## Claim C2 — `uniform_dist` on a constant distribution -/

/-- C2 counterexample: calling `uniform_dist` on `DistConstant(2.0)` does not
raise; the property body is `return None`, so the call completes normally
with `None`. -/
theorem C2_counterexample_constant_uniform_dist_is_none :
    DistABC.uniform_dist (DistABC.constant 2) = none := rfl

/-- C2 (amended): for every Constant distribution, `uniform_dist` returns
`None` instead of raising an error; the call yields no usable sampling
distribution, and callers must exclude Constants from sampling (the
fixed/varying partition of the sampler does exactly that). -/
theorem C2_constant_uniform_dist_returns_none (v : ℚ) :
    DistABC.uniform_dist (DistABC.constant v) = none := rfl

/-! ## Claim C10 — unvalidated execution-mode selection -/

/-- C10: for every method string other than exactly `"sequential"` and
`"multiprocessing"`, `_solve_sub_probs` silently takes the deferred branch:
its trace is exactly one PY work-descriptor write per sub-problem, it solves
nothing, never finalizes, and raises no error (the embedding is a total
function into traces). -/
theorem C10_unrecognized_method_silently_deferred
    (solName : String) (nSub : ℕ) (method : String)
    (h1 : method ≠ METHOD_SEQ) (h2 : method ≠ METHOD_MUL) :
    solveSubProbs solName nSub method
        = ((List.range nSub).map fun i =>
            DispatchEv.wrotePy (subProbName solName i ++ ".py")) ∧
      DispatchEv.finalized ∉ solveSubProbs solName nSub method ∧
      ∀ nm, DispatchEv.solved nm ∉ solveSubProbs solName nSub method := by
  have hbr : solveSubProbs solName nSub method
      = (List.range nSub).map fun i =>
          DispatchEv.wrotePy (subProbName solName i ++ ".py") := by
    unfold solveSubProbs
    rw [if_neg h1, if_neg h2]
  refine ⟨hbr, ?_, ?_⟩
  · rw [hbr]
    simp
  · intro nm
    rw [hbr]
    simp

/-- C10 witness: the documented deferred mode string `"job"` with two
sub-problems. -/
theorem C10_witness :
    solveSubProbs "sol" 2 "job"
        = ((List.range 2).map fun i =>
            DispatchEv.wrotePy (subProbName "sol" i ++ ".py")) ∧
      DispatchEv.finalized ∉ solveSubProbs "sol" 2 "job" ∧
      ∀ nm, DispatchEv.solved nm ∉ solveSubProbs "sol" 2 "job" :=
  C10_unrecognized_method_silently_deferred "sol" 2 "job"
    (by decide) (by decide)

/-! ## Claim C1 — the sensitivity cache short-circuit -/

/-- The cached indices dictionary of the C1 scenario. -/
def c1Stored : SobolIndices :=
  ⟨["sigmas.brain"], [1], [0], [[0]], [[0]], [1], [0]⟩

/-- A surrogate whose Sobol indices were already computed and persisted. -/
def c1State : SurrScalarState :=
  ⟨[("sigmas.brain", DistABC.uniform (1 / 10) (1 / 2))], true, some c1Stored⟩

/-- A fresh SALib analysis result (never used on the cache-hit path). -/
def c1Salib : SalibSobolRes := ⟨[1], [0], [[0]], [[0]], [1], [0]⟩

/-- C1: on a surrogate with `is_sobol_available` set, a repeated
`gen_sobol(1000, 100, 0.95)` call does short-circuit — no Saltelli sample,
no predict, no analysis, state unchanged — but because of the source line
`return sobol` it returns the imported `SALib.analyze.sobol` module object
rather than the cached params/s1/s2/st indices dictionary its own docstring
promises. -/
theorem C1_gen_sobol_cache_hit_returns_module :
    genSobol c1State c1Salib 1000 100 (95 / 100)
        = .ok (.salibSobolModule, c1State, []) ∧
      GenSobolRet.salibSobolModule ≠ GenSobolRet.dict c1Stored := by
  exact ⟨rfl, by decide⟩

/-! ## Claim C9 — per-column fitting and the lost uncertainty estimate -/

/-- C9: when the target matrix has more than one column, `fit` builds a
`MultiOutputRegressor` holding one independently fitted single-output
regressor per column (each trained on that column alone), and `predict` on
such a surrogate returns the per-point means with the standard deviation
reported as `None`; a single-column fit (one-dimensional target, or a
two-dimensional target with one column) returns both means and standard
deviations, whatever the numeric behaviour of the underlying sklearn
regressors. -/
theorem C9_multi_output_fit_per_column_std_none
    (kernel : KernelSpec) (nro rs : ℕ) (alpha : ℚ) (x : List (List ℚ))
    (rows : List (List ℚ)) (predMean predStd : GPR → List ℚ → ℚ)
    (xq : List (List ℚ)) (hcols : 1 < (rows.headD []).length) :
    SurrFit kernel nro rs alpha x (.mat rows)
        = .multi ((List.range (rows.headD []).length).map fun c =>
            ⟨kernel, nro, rs, true, alpha, x, .vec (colOf rows c)⟩) ∧
      (SurrPredict predMean predStd
          (SurrFit kernel nro rs alpha x (.mat rows)) xq).2 = none ∧
      (∀ v : List ℚ,
        (SurrPredict predMean predStd
            (SurrFit kernel nro rs alpha x (.vec v)) xq).2
          = some (xq.map fun q =>
              predStd ⟨kernel, nro, rs, true, alpha, x, .vec v⟩ q)) ∧
      (∀ rows1 : List (List ℚ), ¬ 1 < (rows1.headD []).length →
        (SurrPredict predMean predStd
            (SurrFit kernel nro rs alpha x (.mat rows1)) xq).2
          = some (xq.map fun q =>
              predStd ⟨kernel, nro, rs, true, alpha, x, .mat rows1⟩ q)) := by
  have hfit : SurrFit kernel nro rs alpha x (.mat rows)
      = .multi ((List.range (rows.headD []).length).map fun c =>
          ⟨kernel, nro, rs, true, alpha, x, .vec (colOf rows c)⟩) := by
    simp only [SurrFit]
    rw [if_pos hcols]
  refine ⟨hfit, ?_, fun v => rfl, fun rows1 h1 => ?_⟩
  · rw [hfit]
    rfl
  · simp only [SurrFit, SurrPredict]
    rw [if_neg h1]

/-- C9 witness: a two-column target selects the per-column strategy and
loses the standard deviation; a one-dimensional target keeps it. -/
theorem C9_witness :
    SurrFit (defaultKernel 1) 0 0 1 [[0], [1]] (.mat [[1, 2], [3, 4]])
        = .multi ((List.range ((([[1, 2], [3, 4]] : List (List ℚ)).headD []).length)).map fun c =>
            ⟨defaultKernel 1, 0, 0, true, 1, [[0], [1]], .vec (colOf [[1, 2], [3, 4]] c)⟩) ∧
      (SurrPredict (fun _ _ => 0) (fun _ _ => 0)
          (SurrFit (defaultKernel 1) 0 0 1 [[0], [1]] (.mat [[1, 2], [3, 4]])) [[0]]).2
        = none :=
  ⟨(C9_multi_output_fit_per_column_std_none (defaultKernel 1) 0 0 1 [[0], [1]]
      [[1, 2], [3, 4]] (fun _ _ => 0) (fun _ _ => 0) [[0]] (by decide)).1,
    (C9_multi_output_fit_per_column_std_none (defaultKernel 1) 0 0 1 [[0], [1]]
      [[1, 2], [3, 4]] (fun _ _ => 0) (fun _ _ => 0) [[0]] (by decide)).2.1⟩

/-! ## Claim C3 — idempotence of `finalize` -/

/-- C3: `ParametricForwardSolution.finalize` is idempotent. When the
finalized flag is already set, the call returns the unchanged state with an
empty effect trace — no directory scan, no deletion or relocation, no
surrogate fit; and after any successful call, a second call is exactly such
a no-op, so scanning and fitting happen only on the first call. -/
theorem C3_finalize_idempotent :
    (∀ (s : PFSol) (dir : List FsEntry) (disk : String → SubSol) (clean : Bool),
        s.is_finalized = true → pfsFinalize s dir disk clean = .ok (s, [])) ∧
    (∀ (s : PFSol) (dir : List FsEntry) (disk : String → SubSol) (clean : Bool)
        (s1 : PFSol) (evs : List FinEv),
        pfsFinalize s dir disk clean = .ok (s1, evs) →
        pfsFinalize s1 dir disk clean = .ok (s1, [])) := by
  have h1 : ∀ (s : PFSol) (dir : List FsEntry) (disk : String → SubSol)
      (clean : Bool), s.is_finalized = true →
      pfsFinalize s dir disk clean = .ok (s, []) := by
    intro s dir disk clean h
    simp only [pfsFinalize, h, if_true]
  refine ⟨h1, ?_⟩
  intro s dir disk clean s1 evs h
  by_cases hf : s.is_finalized = true
  · rw [h1 s dir disk clean hf] at h
    have hs : s = s1 := by
      injection h with h2
      exact (Prod.mk.injEq _ _ _ _ ▸ h2).1
    exact hs ▸ h1 s dir disk clean hf
  · rw [Bool.not_eq_true] at hf
    simp only [pfsFinalize, hf, Bool.false_eq_true, if_false] at h
    split at h
    · exact absurd h (by simp)
    · have hs1 : s1.is_finalized = true := by
        injection h with h2
        have := (Prod.mk.injEq _ _ _ _ ▸ h2).1
        rw [← this]
      exact h1 s1 dir disk clean hs1

/-- C3 witness: a concrete already-finalized solution: the second call
returns it unchanged with no effects. -/
theorem C3_witness :
    pfsFinalize ⟨"sol", [], [], [], none, true⟩ [] (fun _ => ⟨[], [], ""⟩) true
      = .ok (⟨"sol", [], [], [], none, true⟩, []) :=
  C3_finalize_idempotent.1 ⟨"sol", [], [], [], none, true⟩ []
    (fun _ => ⟨[], [], ""⟩) true rfl

/-! ## Claim C4 — zero sub-solutions at `finalize` -/

/-- C4 counterexample: on `SolParamEEGLeadfield`, `finalize()` over a
directory with zero entries matching the sub-solution pattern fails with an
`IndexError` (from `sub_sols[0]` on the empty list), not with the dedicated
no-sub-solution error the claim states. -/
theorem C4_counterexample_eeg_finalize_index_error :
    eegFinalize ⟨"sol", [], [], []⟩ [] (fun _ => ⟨[], [], ""⟩)
        = .error PyErr.indexErr ∧
      PyErr.indexErr ≠ PyErr.runtimeErr "No sub-solution found." :=
  ⟨rfl, by decide⟩

/-- C4 (amended): on a non-finalized `ParametricForwardSolution` whose
directory has zero entries matching the `sol_` + 8-digit pattern,
`finalize()` raises `RuntimeError("No sub-solution found.")` before any
state change, so the solution is not marked finalized; on
`SolParamEEGLeadfield`, however, `finalize()` with zero entries matching its
name pattern fails with an `IndexError` instead of a dedicated
no-sub-solution error. -/
theorem C4_finalize_zero_sub_solutions
    (s : PFSol) (dir : List FsEntry) (disk : String → SubSol) (clean : Bool)
    (es : EegSol) (dirE : List FsEntry) (diskE : String → SubSol)
    (hf : s.is_finalized = false)
    (hempty : (dir.filter fun e => e.isDir && matchesSolName e.entryName) = [])
    (hemptyE : (dirE.filter fun e => matchesSubName e.entryName) = []) :
    pfsFinalize s dir disk clean
        = .error (.runtimeErr "No sub-solution found.") ∧
      eegFinalize es dirE diskE = .error PyErr.indexErr := by
  constructor
  · simp only [pfsFinalize, hf, Bool.false_eq_true, if_false, hempty]
    simp
  · simp only [eegFinalize, getSubFile, hemptyE]
    rfl

/-- C4 witness: empty directories on both aggregator classes. -/
theorem C4_witness :
    pfsFinalize ⟨"sol", [], [], [], none, false⟩ [] (fun _ => ⟨[], [], ""⟩) true
        = .error (.runtimeErr "No sub-solution found.") ∧
      eegFinalize ⟨"lf", [], [], []⟩ [] (fun _ => ⟨[], [], ""⟩)
        = .error PyErr.indexErr :=
  C4_finalize_zero_sub_solutions ⟨"sol", [], [], [], none, false⟩ []
    (fun _ => ⟨[], [], ""⟩) true ⟨"lf", [], [], []⟩ [] (fun _ => ⟨[], [], ""⟩)
    rfl rfl rfl

/-! ## Sampler lemmas -/

lemma uniform_dist_isSome_of_not_constant (d : DistABC)
    (h : d.isConstant = false) : ∃ r, d.uniform_dist = some r := by
  cases d with
  | constant v => simp [DistABC.isConstant] at h
  | uniform l u => exact ⟨⟨l, u⟩, rfl⟩
  | normal mu sigma => exact ⟨⟨mu - 3 * sigma, mu + 3 * sigma⟩, rfl⟩
  | truncNormal mu sigma l u => exact ⟨⟨l, u⟩, rfl⟩

lemma toParam_varying_empty_iff (nm : String) (items : List ParamEntry) :
    (toParam nm items).2 = [] ↔ ∀ e ∈ items, e.dist.isConstant = true := by
  induction items with
  | nil => simp [toParam]
  | cons e rest ih =>
    cases hd : e.dist with
    | constant v => simp [toParam, hd, DistABC.isConstant, ih]
    | uniform l u => simp [toParam, hd, DistABC.isConstant]
    | normal mu sigma => simp [toParam, hd, DistABC.isConstant]
    | truncNormal mu sigma l u => simp [toParam, hd, DistABC.isConstant]

lemma mem_toParam_varying (nm : String) (items : List ParamEntry)
    (x : String × DistABC × Option String) (hx : x ∈ (toParam nm items).2) :
    x.2.1.isConstant = false ∧
      ∃ e ∈ items, x.1 = (if nm ≠ "" then nm ++ "." ++ e.tissue else e.tissue) := by
  induction items with
  | nil => simp [toParam] at hx
  | cons e rest ih =>
    cases hd : e.dist with
    | constant v =>
      rw [show (toParam nm (e :: rest)).2 = (toParam nm rest).2 by
        simp [toParam, hd]] at hx
      obtain ⟨h1, e1, he1, h2⟩ := ih hx
      exact ⟨h1, e1, List.mem_cons_of_mem _ he1, h2⟩
    | uniform l u =>
      rw [show (toParam nm (e :: rest)).2
          = ((if nm ≠ "" then nm ++ "." ++ e.tissue else e.tissue),
              DistABC.uniform l u, e.formula) :: (toParam nm rest).2 by
        simp [toParam, hd]] at hx
      rcases List.mem_cons.mp hx with rfl | hx2
      · exact ⟨rfl, e, List.mem_cons_self .., rfl⟩
      · obtain ⟨h1, e1, he1, h2⟩ := ih hx2
        exact ⟨h1, e1, List.mem_cons_of_mem _ he1, h2⟩
    | normal mu sigma =>
      rw [show (toParam nm (e :: rest)).2
          = ((if nm ≠ "" then nm ++ "." ++ e.tissue else e.tissue),
              DistABC.normal mu sigma, e.formula) :: (toParam nm rest).2 by
        simp [toParam, hd]] at hx
      rcases List.mem_cons.mp hx with rfl | hx2
      · exact ⟨rfl, e, List.mem_cons_self .., rfl⟩
      · obtain ⟨h1, e1, he1, h2⟩ := ih hx2
        exact ⟨h1, e1, List.mem_cons_of_mem _ he1, h2⟩
    | truncNormal mu sigma l u =>
      rw [show (toParam nm (e :: rest)).2
          = ((if nm ≠ "" then nm ++ "." ++ e.tissue else e.tissue),
              DistABC.truncNormal mu sigma l u, e.formula) :: (toParam nm rest).2 by
        simp [toParam, hd]] at hx
      rcases List.mem_cons.mp hx with rfl | hx2
      · exact ⟨rfl, e, List.mem_cons_self .., rfl⟩
      · obtain ⟨h1, e1, he1, h2⟩ := ih hx2
        exact ⟨h1, e1, List.mem_cons_of_mem _ he1, h2⟩

lemma mem_toParam_fixed (nm : String) (items : List ParamEntry)
    (x : String × ℚ × Option String) (hx : x ∈ (toParam nm items).1) :
    ∃ e ∈ items, x.1 = (if nm ≠ "" then nm ++ "." ++ e.tissue else e.tissue) := by
  induction items with
  | nil => simp [toParam] at hx
  | cons e rest ih =>
    cases hd : e.dist with
    | constant v =>
      rw [show (toParam nm (e :: rest)).1
          = ((if nm ≠ "" then nm ++ "." ++ e.tissue else e.tissue),
              v, e.formula) :: (toParam nm rest).1 by
        simp [toParam, hd]] at hx
      rcases List.mem_cons.mp hx with rfl | hx2
      · exact ⟨e, List.mem_cons_self .., rfl⟩
      · obtain ⟨e1, he1, h2⟩ := ih hx2
        exact ⟨e1, List.mem_cons_of_mem _ he1, h2⟩
    | uniform l u =>
      rw [show (toParam nm (e :: rest)).1 = (toParam nm rest).1 by
        simp [toParam, hd]] at hx
      obtain ⟨e1, he1, h2⟩ := ih hx
      exact ⟨e1, List.mem_cons_of_mem _ he1, h2⟩
    | normal mu sigma =>
      rw [show (toParam nm (e :: rest)).1 = (toParam nm rest).1 by
        simp [toParam, hd]] at hx
      obtain ⟨e1, he1, h2⟩ := ih hx
      exact ⟨e1, List.mem_cons_of_mem _ he1, h2⟩
    | truncNormal mu sigma l u =>
      rw [show (toParam nm (e :: rest)).1 = (toParam nm rest).1 by
        simp [toParam, hd]] at hx
      obtain ⟨e1, he1, h2⟩ := ih hx
      exact ⟨e1, List.mem_cons_of_mem _ he1, h2⟩

lemma toParam_lengths (nm : String) (items : List ParamEntry) :
    (toParam nm items).1.length
        = (items.filter fun e => e.dist.isConstant).length ∧
      (toParam nm items).2.length
        = (items.filter fun e => e.dist.isConstant = false).length := by
  induction items with
  | nil => simp [toParam]
  | cons e rest ih =>
    cases hd : e.dist with
    | constant v =>
      simp [toParam, hd, DistABC.isConstant, List.filter_cons, ih.1, ih.2]
    | uniform l u =>
      simp [toParam, hd, DistABC.isConstant, List.filter_cons, ih.1, ih.2]
    | normal mu sigma =>
      simp [toParam, hd, DistABC.isConstant, List.filter_cons, ih.1, ih.2]
    | truncNormal mu sigma l u =>
      simp [toParam, hd, DistABC.isConstant, List.filter_cons, ih.1, ih.2]

lemma seqOption_spec {α β : Type} (f : α → Option β) :
    ∀ l : List α, (∀ x ∈ l, ∃ r, f x = some r) →
      ∃ rs, seqOption (l.map f) = some rs ∧
        List.Forall₂ (fun x r => f x = some r) l rs := by
  intro l
  induction l with
  | nil => exact fun _ => ⟨[], rfl, .nil⟩
  | cons a as ih =>
    intro h
    obtain ⟨r, hr⟩ := h a (List.mem_cons_self ..)
    obtain ⟨rs, hrs, hfa⟩ := ih fun x hx => h x (List.mem_cons_of_mem _ hx)
    exact ⟨r :: rs, by simp [seqOption, hr, hrs], .cons hr hfa⟩

lemma drawX_length (ranges : List ChaosUniform) (n skip : ℕ) :
    (drawX ranges n skip).length = ranges.length := by
  simp [drawX]

lemma drawX_row_length (ranges : List ChaosUniform) (n skip : ℕ)
    (row : List ℚ) (hr : row ∈ drawX ranges n skip) : row.length = n := by
  simp only [drawX, List.map_map, List.mem_map, Function.comp] at hr
  obtain ⟨i, hi, rfl⟩ := hr
  simp

lemma drawX_headD_length (ranges : List ChaosUniform) (n skip : ℕ)
    (h : ranges ≠ []) : ((drawX ranges n skip).headD []).length = n := by
  rcases hx : drawX ranges n skip with _ | ⟨r, rs⟩
  · have := drawX_length ranges n skip
    rw [hx] at this
    exact absurd (List.length_eq_zero.mp this.symm) h
  · have hmem : r ∈ drawX ranges n skip := by rw [hx]; exact List.mem_cons_self ..
    simpa using drawX_row_length ranges n skip r hmem

lemma mkVaryOut_ok (l : List ((String × DistABC × Option String) × List ℚ))
    (h : ∀ pr ∈ l, ∃ pq, splitPropName pr.1.1 = some pq) :
    ∃ out, mkVaryOut l = .ok out := by
  induction l with
  | nil => exact ⟨[], rfl⟩
  | cons pr ps ih =>
    obtain ⟨⟨nm, d, ref⟩, col⟩ := pr
    obtain ⟨pq, hpq⟩ := h _ (List.mem_cons_self ..)
    obtain ⟨out, hout⟩ := ih fun q hq => h q (List.mem_cons_of_mem _ hq)
    exact ⟨(pq.1, pq.2, col, ref) :: out,
      by simp [mkVaryOut, hpq, hout, Except.map]⟩

lemma mkVaryOut_err (l : List ((String × DistABC × Option String) × List ℚ))
    (c : PyErr) (h : mkVaryOut l = .error c) : c = .attributeErr := by
  induction l with
  | nil => simp [mkVaryOut] at h
  | cons pr ps ih =>
    obtain ⟨⟨nm, d, ref⟩, col⟩ := pr
    rcases hs : splitPropName nm with _ | pq
    · simp [mkVaryOut, hs] at h
      exact h.symm
    · rcases hr : mkVaryOut ps with c2 | out
      · simp [mkVaryOut, hs, hr, Except.map] at h
        cases h
        exact ih hr
      · simp [mkVaryOut, hs, hr, Except.map] at h

lemma mkFixedOut_ok (nCols : ℕ) (l : List (String × ℚ × Option String))
    (h : ∀ p ∈ l, ∃ pq, splitPropName p.1 = some pq) :
    ∃ out, mkFixedOut nCols l = .ok out ∧
      ∀ p ∈ l, ∃ pq, splitPropName p.1 = some pq ∧
        (pq.1, pq.2, List.replicate nCols p.2.1, p.2.2) ∈ out := by
  induction l with
  | nil => exact ⟨[], rfl, by simp⟩
  | cons p ps ih =>
    obtain ⟨nm, v, ref⟩ := p
    obtain ⟨pq, hpq⟩ := h _ (List.mem_cons_self ..)
    obtain ⟨out, hout, hmem⟩ := ih fun q hq => h q (List.mem_cons_of_mem _ hq)
    refine ⟨(pq.1, pq.2, List.replicate nCols v, ref) :: out,
      by simp [mkFixedOut, hpq, hout, Except.map], ?_⟩
    intro q hq
    rcases List.mem_cons.mp hq with rfl | hq2
    · exact ⟨pq, hpq, List.mem_cons_self ..⟩
    · obtain ⟨pq2, hpq2, hm2⟩ := hmem q hq2
      exact ⟨pq2, hpq2, List.mem_cons_of_mem _ hm2⟩

lemma mkFixedOut_err (nCols : ℕ) (l : List (String × ℚ × Option String))
    (c : PyErr) (h : mkFixedOut nCols l = .error c) : c = .attributeErr := by
  induction l with
  | nil => simp [mkFixedOut] at h
  | cons p ps ih =>
    obtain ⟨nm, v, ref⟩ := p
    rcases hs : splitPropName nm with _ | pq
    · simp [mkFixedOut, hs] at h
      exact h.symm
    · rcases hr : mkFixedOut nCols ps with c2 | out
      · simp [mkFixedOut, hs, hr, Except.map] at h
        cases h
        exact ih hr
      · simp [mkFixedOut, hs, hr, Except.map] at h

lemma take_drop_range_map {α : Type} (f : ℕ → α) (a b k m : ℕ)
    (ha : k + m ≤ a) (hb : k + m ≤ b) :
    ((((List.range a).map f).drop k).take m)
      = ((((List.range b).map f).drop k).take m) := by
  apply List.ext_getElem
  · simp only [List.length_take, List.length_drop, List.length_map,
      List.length_range]
    omega
  · intro i h1 h2
    simp only [List.getElem_take, List.getElem_drop, List.getElem_map,
      List.getElem_range]

/-! ## Claim C5 — the empty-varying guard -/

/-- C5: when every parameter distribution is Constant the sampler fails
with the no-varying-parameter error (the spec calls it SamplingError; the
code raises `RuntimeError`) before any sampling; when at least one
parameter is non-Constant, the guard passes, the joint bounding-uniform
distribution exists and the full design matrix is drawn. -/
theorem C5_sampling_error_iff_all_constant
    (items : List ParamEntry) (N skip : ℕ) :
    ((∀ e ∈ items, e.dist.isConstant = true) →
        genParams items N skip = .error (.runtimeErr noVaryingMsg)) ∧
    ((∃ e ∈ items, e.dist.isConstant = false) →
        ∃ ranges, jointRanges items = some ranges ∧ ranges ≠ [] ∧
          (drawX ranges N skip).length = ranges.length ∧
          (∀ row ∈ drawX ranges N skip, row.length = N) ∧
          genParams items N skip ≠ .error (.runtimeErr noVaryingMsg)) := by
  constructor
  · intro hall
    have hv : (toParam "sigmas" items).2 = [] :=
      (toParam_varying_empty_iff _ _).mpr hall
    simp [genParams, hv]
  · rintro ⟨e, he, hne⟩
    have hvne : (toParam "sigmas" items).2 ≠ [] := by
      intro hcontra
      have := (toParam_varying_empty_iff _ _).mp hcontra e he
      rw [hne] at this
      cases this
    obtain ⟨rs, hrs, hfa⟩ :=
      seqOption_spec (fun x : String × DistABC × Option String =>
          x.2.1.uniform_dist)
        (toParam "sigmas" items).2
        (fun x hx =>
          uniform_dist_isSome_of_not_constant x.2.1
            (mem_toParam_varying _ _ x hx).1)
    have hjr : jointRanges items = some rs := hrs
    have hrsne : rs ≠ [] := by
      intro hrs0
      have hlen := List.Forall₂.length_eq hfa
      rw [hrs0, List.length_nil] at hlen
      exact hvne (List.length_eq_zero.mp hlen)
    refine ⟨rs, hjr, hrsne, drawX_length rs N skip,
      fun row hrow => drawX_row_length rs N skip row hrow, ?_⟩
    intro hcontra
    have hie : (toParam "sigmas" items).2.isEmpty = false := by
      rcases hv2 : (toParam "sigmas" items).2 with _ | ⟨a, as⟩
      · exact absurd hv2 hvne
      · rfl
    simp only [genParams, hie, Bool.false_eq_true, if_false, hjr] at hcontra
    rcases hmv : mkVaryOut ((toParam "sigmas" items).2.zip (drawX rs N skip))
      with c1 | v
    · rw [hmv] at hcontra
      simp only at hcontra
      have := mkVaryOut_err _ c1 hmv
      rw [this] at hcontra
      cases hcontra
    · rcases hmf : mkFixedOut (((drawX rs N skip).headD []).length)
        (toParam "sigmas" items).1 with c2 | f
      · rw [hmv, hmf] at hcontra
        simp only at hcontra
        have := mkFixedOut_err _ _ c2 hmf
        rw [this] at hcontra
        cases hcontra
      · rw [hmv, hmf] at hcontra
        simp only at hcontra
        cases hcontra

/-- C5 witness: an all-constant collection fails with the guard error; a
collection with one uniform parameter draws a full design matrix. -/
theorem C5_witness :
    (genParams [⟨"brain", .constant 1, none⟩] 3 0
        = .error (.runtimeErr noVaryingMsg)) ∧
      ∃ ranges,
        jointRanges [⟨"brain", DistABC.uniform 0 1, none⟩] = some ranges ∧
        ranges ≠ [] ∧
        (drawX ranges 3 0).length = ranges.length ∧
        (∀ row ∈ drawX ranges 3 0, row.length = 3) ∧
        genParams [⟨"brain", DistABC.uniform 0 1, none⟩] 3 0
          ≠ .error (.runtimeErr noVaryingMsg) :=
  ⟨(C5_sampling_error_iff_all_constant [⟨"brain", .constant 1, none⟩] 3 0).1
      (by decide),
    (C5_sampling_error_iff_all_constant
        [⟨"brain", DistABC.uniform 0 1, none⟩] 3 0).2
      ⟨⟨"brain", DistABC.uniform 0 1, none⟩, by decide, by decide⟩⟩

/-! ## Claim C6 — fixed/varying partition shape -/

/-- C6: with `k` Constant and `j ≥ 1` non-Constant parameters, the joint
Halton sampling distribution has exactly one bounding-uniform component per
varying parameter (dimension `j`), and the output array of every fixed
parameter is `N` copies of its constant value. -/
theorem C6_halton_dimension_and_fixed_arrays
    (items : List ParamEntry) (N skip : ℕ) (hN : 1 ≤ N)
    (hv : (toParam "sigmas" items).2 ≠ [])
    (hwf : ∀ e ∈ items, ∃ pq, splitPropName ("sigmas." ++ e.tissue) = some pq) :
    ∃ ranges out,
      jointRanges items = some ranges ∧
      List.Forall₂ (fun (x : String × DistABC × Option String) r =>
          x.2.1.uniform_dist = some r)
        (toParam "sigmas" items).2 ranges ∧
      ranges.length = (toParam "sigmas" items).2.length ∧
      (toParam "sigmas" items).2.length
          = (items.filter fun e => e.dist.isConstant = false).length ∧
      (toParam "sigmas" items).1.length
          = (items.filter fun e => e.dist.isConstant).length ∧
      genParams items N skip = .ok out ∧
      ∀ p ∈ (toParam "sigmas" items).1, ∃ pq,
        splitPropName p.1 = some pq ∧
        (pq.1, pq.2, List.replicate N p.2.1, p.2.2) ∈ out := by
  obtain ⟨rs, hrs, hfa⟩ :=
    seqOption_spec (fun x : String × DistABC × Option String =>
        x.2.1.uniform_dist)
      (toParam "sigmas" items).2
      (fun x hx =>
        uniform_dist_isSome_of_not_constant x.2.1
          (mem_toParam_varying _ _ x hx).1)
  have hjr : jointRanges items = some rs := hrs
  have hlen := List.Forall₂.length_eq hfa
  have hrsne : rs ≠ [] := by
    intro hrs0
    rw [hrs0, List.length_nil] at hlen
    exact hv (List.length_eq_zero.mp hlen)
  have hsplit : ∀ nm : String,
      (∃ e ∈ items, nm = (if "sigmas" ≠ "" then "sigmas" ++ "." ++ e.tissue
        else e.tissue)) →
      ∃ pq, splitPropName nm = some pq := by
    rintro nm ⟨e, he, hnm⟩
    rw [hnm]
    simpa using hwf e he
  obtain ⟨v, hmv⟩ := mkVaryOut_ok
    ((toParam "sigmas" items).2.zip (drawX rs N skip))
    (fun pr hpr =>
      hsplit pr.1.1
        ((mem_toParam_varying _ _ pr.1 (List.of_mem_zip hpr).1).2.imp
          fun e hE => ⟨hE.1, hE.2⟩))
  have hhead : ((drawX rs N skip).headD []).length = N :=
    drawX_headD_length rs N skip hrsne
  obtain ⟨f, hmf, hfmem⟩ := mkFixedOut_ok (((drawX rs N skip).headD []).length)
    (toParam "sigmas" items).1
    (fun p hp =>
      hsplit p.1 ((mem_toParam_fixed _ _ p hp).imp fun e hE => ⟨hE.1, hE.2⟩))
  have hie : (toParam "sigmas" items).2.isEmpty = false := by
    rcases hv2 : (toParam "sigmas" items).2 with _ | ⟨a, as⟩
    · exact absurd hv2 hv
    · rfl
  refine ⟨rs, v ++ f, hjr, hfa, hlen.symm, (toParam_lengths _ _).2,
    (toParam_lengths _ _).1, ?_, ?_⟩
  · simp only [genParams, hie, Bool.false_eq_true, if_false, hjr, hmv, hmf]
  · intro p hp
    obtain ⟨pq, hpq, hm⟩ := hfmem p hp
    rw [hhead] at hm
    exact ⟨pq, hpq, List.mem_append_right _ hm⟩

/-- C6 witness: one uniform and one constant parameter with `N = 2`. -/
theorem C6_witness :
    ∃ ranges out,
      jointRanges [⟨"brain", DistABC.uniform 0 1, none⟩,
          ⟨"skull", DistABC.constant 5, none⟩] = some ranges ∧
      List.Forall₂ (fun (x : String × DistABC × Option String) r =>
          x.2.1.uniform_dist = some r)
        (toParam "sigmas" [⟨"brain", DistABC.uniform 0 1, none⟩,
          ⟨"skull", DistABC.constant 5, none⟩]).2 ranges ∧
      ranges.length = (toParam "sigmas" [⟨"brain", DistABC.uniform 0 1, none⟩,
          ⟨"skull", DistABC.constant 5, none⟩]).2.length ∧
      (toParam "sigmas" [⟨"brain", DistABC.uniform 0 1, none⟩,
          ⟨"skull", DistABC.constant 5, none⟩]).2.length
          = (([⟨"brain", DistABC.uniform 0 1, none⟩,
              ⟨"skull", DistABC.constant 5, none⟩] : List ParamEntry).filter
                fun e => e.dist.isConstant = false).length ∧
      (toParam "sigmas" [⟨"brain", DistABC.uniform 0 1, none⟩,
          ⟨"skull", DistABC.constant 5, none⟩]).1.length
          = (([⟨"brain", DistABC.uniform 0 1, none⟩,
              ⟨"skull", DistABC.constant 5, none⟩] : List ParamEntry).filter
                fun e => e.dist.isConstant).length ∧
      genParams [⟨"brain", DistABC.uniform 0 1, none⟩,
          ⟨"skull", DistABC.constant 5, none⟩] 2 0 = .ok out ∧
      ∀ p ∈ (toParam "sigmas" [⟨"brain", DistABC.uniform 0 1, none⟩,
          ⟨"skull", DistABC.constant 5, none⟩]).1, ∃ pq,
        splitPropName p.1 = some pq ∧
        (pq.1, pq.2, List.replicate 2 p.2.1, p.2.2) ∈ out :=
  C6_halton_dimension_and_fixed_arrays
    [⟨"brain", DistABC.uniform 0 1, none⟩, ⟨"skull", DistABC.constant 5, none⟩]
    2 0 (by decide) (by decide)
    (by
      intro e he
      fin_cases he
      · exact ⟨("sigmas", "brain"), by decide⟩
      · exact ⟨("sigmas", "skull"), by decide⟩)

/-! ## Claim C7 — skip composability of the Halton draw -/

/-- C7: the Halton draw at index `i` is a pure function of the index, so the
first `m` columns of a draw of `N + skip` evaluations offset by `skip` equal
columns `skip` to `skip + m - 1` of a draw of `N` evaluations with no
offset, for every varying dimension. -/
theorem C7_skip_composability (items : List ParamEntry) (N skip m : ℕ)
    (ranges : List ChaosUniform) (hm : skip + m ≤ N)
    (hr : jointRanges items = some ranges) (i : ℕ) :
    (((drawX ranges (N + skip) skip).getD i []).take m)
      = ((((drawX ranges N 0).getD i []).drop skip).take m) := by
  by_cases hi : i < ranges.length
  · have hrow : ∀ n sk : ℕ, (drawX ranges n sk).getD i []
        = (((List.range (n + sk)).map fun t =>
            ChaosUniform.inv (ranges.getD i ⟨0, 0⟩)
              (vdc ((firstPrimes ranges.length).getD i 2)
                (t + listMax (firstPrimes ranges.length) + 1))).drop sk) := by
      intro n sk
      simp only [drawX, List.map_map, Function.comp]
      rw [List.getD_eq_getElem?_getD, List.getElem?_map,
        List.getElem?_range hi]
      rfl
    rw [hrow, hrow]
    simp only [Nat.add_zero, List.drop_zero]
    exact take_drop_range_map _ (N + skip + skip) N skip m
      (by omega) (by omega)
  · have hl1 : (drawX ranges (N + skip) skip).getD i [] = [] := by
      apply List.getD_eq_default
      rw [drawX_length]
      omega
    have hl2 : (drawX ranges N 0).getD i [] = [] := by
      apply List.getD_eq_default
      rw [drawX_length]
      omega
    rw [hl1, hl2]
    simp

/-- C7 witness: one uniform parameter, `N = 2`, `skip = 1`, `m = 1`. -/
theorem C7_witness :
    (((drawX [⟨0, 1⟩] (2 + 1) 1).getD 0 []).take 1)
      = ((((drawX [⟨0, 1⟩] 2 0).getD 0 []).drop 1).take 1) :=
  C7_skip_composability [⟨"brain", DistABC.uniform 0 1, none⟩] 2 1 1
    [⟨0, 1⟩] (by decide) (by decide) 0

/-! ## Thinning lemmas -/

lemma sqDist_cons (x y : ℚ) (xs ys : List ℚ) :
    sqDist (x :: xs) (y :: ys) = (x - y) ^ 2 + sqDist xs ys := by
  simp [sqDist]

lemma sqDist_self (a : List ℚ) : sqDist a a = 0 := by
  induction a with
  | nil => rfl
  | cons x xs ih => rw [sqDist_cons, ih]; ring

lemma sqDist_comm (a b : List ℚ) : sqDist a b = sqDist b a := by
  induction a generalizing b with
  | nil => cases b <;> rfl
  | cons x xs ih =>
    cases b with
    | nil => rfl
    | cons y ys => rw [sqDist_cons, sqDist_cons, ih]; ring

lemma pickMinBy_mem (f : MeshPt → ℚ) (h : MeshPt) (t : List MeshPt) :
    pickMinBy f h t ∈ h :: t := by
  unfold pickMinBy
  induction t generalizing h with
  | nil => simp
  | cons x xs ih =>
    simp only [List.foldl_cons]
    by_cases hc : f x < f h
    · rw [if_pos hc]
      rcases List.mem_cons.mp (ih x) with h1 | h1
      · rw [h1]
        exact List.mem_cons_of_mem _ (List.mem_cons_self ..)
      · exact List.mem_cons_of_mem _ (List.mem_cons_of_mem _ h1)
    · rw [if_neg hc]
      rcases List.mem_cons.mp (ih h) with h1 | h1
      · rw [h1]
        exact List.mem_cons_self ..
      · exact List.mem_cons_of_mem _ (List.mem_cons_of_mem _ h1)

/-- Full loop invariant of the greedy thinning loop: for any state whose
fuel bounds the candidate count, whose accumulator head is the current
point, whose candidates have already been filtered against every accepted
point but the head, whose accepted points are pairwise separated, and whose
candidates contain a point at the current coordinates, the loop result is
drawn from the accumulator and the candidates, is pairwise separated,
extends the accumulator, leaves every candidate either kept or within the
separation of a kept point, and starts with the last accumulator entry. -/
lemma thinAux_spec (d2 : ℚ) (hd2 : 0 < d2) :
    ∀ (fuel : ℕ) (current : List ℚ) (all acc : List MeshPt),
      all.length ≤ fuel →
      (∃ hd tl, acc = hd :: tl ∧ hd.coord = current) →
      (∀ p ∈ all, ∀ q ∈ acc.tail, d2 ≤ sqDist q.coord p.coord) →
      List.Pairwise (fun a b => d2 ≤ sqDist a.coord b.coord) acc →
      (all = [] ∨ ∃ a ∈ all, a.coord = current) →
      (∀ q ∈ thinAux d2 fuel current all acc, q ∈ acc ∨ q ∈ all) ∧
      List.Pairwise (fun a b => d2 ≤ sqDist a.coord b.coord)
        (thinAux d2 fuel current all acc) ∧
      (∀ q ∈ acc, q ∈ thinAux d2 fuel current all acc) ∧
      (∀ p ∈ all, p ∈ thinAux d2 fuel current all acc ∨
        ∃ z ∈ thinAux d2 fuel current all acc, sqDist z.coord p.coord < d2) ∧
      (thinAux d2 fuel current all acc).head? = acc.getLast? := by
  intro fuel
  induction fuel with
  | zero =>
    intro current all acc hfuel hacc hIB hpw hwit
    have hall : all = [] := List.length_eq_zero.mp (Nat.le_zero.mp hfuel)
    subst hall
    have hr : thinAux d2 0 current [] acc = acc.reverse := rfl
    rw [hr]
    refine ⟨fun q hq => Or.inl (List.mem_reverse.mp hq),
      List.pairwise_reverse.mpr
        (hpw.imp fun hab => sqDist_comm _ _ ▸ hab),
      fun q hq => List.mem_reverse.mpr hq,
      fun p hp => absurd hp (List.not_mem_nil p),
      List.head?_reverse acc⟩
  | succ fuel ih =>
    intro current all acc hfuel hacc hIB hpw hwit
    rcases hsurv : all.filter (fun p => ¬ sqDist current p.coord < d2)
      with _ | ⟨h, t⟩
    · have hr : thinAux d2 (fuel + 1) current all acc = acc.reverse := by
        simp only [thinAux, hsurv]
      obtain ⟨hd, tl, hacc_eq, hhd⟩ := hacc
      have hclose : ∀ p ∈ all, sqDist current p.coord < d2 := by
        intro p hp
        have := List.filter_eq_nil_iff.mp hsurv p hp
        simpa using this
      rw [hr]
      refine ⟨fun q hq => Or.inl (List.mem_reverse.mp hq),
        List.pairwise_reverse.mpr
          (hpw.imp fun hab => sqDist_comm _ _ ▸ hab),
        fun q hq => List.mem_reverse.mpr hq, ?_,
        List.head?_reverse acc⟩
      intro p hp
      refine Or.inr ⟨hd, List.mem_reverse.mpr (hacc_eq ▸ List.mem_cons_self ..),
        ?_⟩
      rw [hhd]
      exact hclose p hp
    · have hr : thinAux d2 (fuel + 1) current all acc
          = thinAux d2 fuel
              (pickMinBy (fun p => sqDist current p.coord) h t).coord
              (h :: t) (pickMinBy (fun p => sqDist current p.coord) h t :: acc) := by
        simp only [thinAux, hsurv]
      set next := pickMinBy (fun p => sqDist current p.coord) h t with hnext
      have hnmem : next ∈ h :: t := pickMinBy_mem _ _ _
      have hsurv_sub : ∀ p ∈ h :: t, p ∈ all := by
        intro p hp
        exact (List.mem_filter.mp (hsurv ▸ hp)).1
      have hsurv_far : ∀ p ∈ h :: t, d2 ≤ sqDist current p.coord := by
        intro p hp
        have h2 := (List.mem_filter.mp (hsurv ▸ hp)).2
        simpa using h2
      obtain ⟨hd, tl, hacc_eq, hhd⟩ := hacc
      have hfar_acc : ∀ p ∈ h :: t, ∀ q ∈ acc, d2 ≤ sqDist q.coord p.coord := by
        intro p hp q hq
        rw [hacc_eq] at hq
        rcases List.mem_cons.mp hq with rfl | hq2
        · rw [hhd]
          exact hsurv_far p hp
        · exact hIB p (hsurv_sub p hp) q (by rw [hacc_eq]; exact hq2)
      have hlt : (h :: t).length < all.length := by
        rw [← hsurv]
        apply List.length_filter_lt_length_iff_exists.mpr
        rcases hwit with hall0 | ⟨a, ha, hac⟩
        · rw [hall0] at hsurv
          simp at hsurv
        · refine ⟨a, ha, ?_⟩
          rw [hac, sqDist_self]
          simp [hd2]
      obtain ⟨ih1, ih2, ih3, ih4, ih5⟩ :=
        ih next.coord (h :: t) (next :: acc)
          (by omega)
          ⟨next, acc, rfl, rfl⟩
          (by
            intro p hp q hq
            exact hfar_acc p hp q hq)
          (by
            refine List.pairwise_cons.mpr ⟨?_, hpw⟩
            intro q hq
            exact sqDist_comm _ _ ▸ hfar_acc next hnmem q hq)
          (Or.inr ⟨next, hnmem, rfl⟩)
      rw [hr]
      refine ⟨?_, ih2, ?_, ?_, ?_⟩
      · intro q hq
        rcases ih1 q hq with hq1 | hq1
        · rcases List.mem_cons.mp hq1 with rfl | hq2
          · exact Or.inr (hsurv_sub _ hnmem)
          · exact Or.inl hq2
        · exact Or.inr (hsurv_sub q hq1)
      · intro q hq
        exact ih3 q (List.mem_cons_of_mem _ hq)
      · intro p hp
        by_cases hcl : sqDist current p.coord < d2
        · refine Or.inr ⟨hd, ?_, ?_⟩
          · exact ih3 hd (List.mem_cons_of_mem _ (hacc_eq ▸ List.mem_cons_self ..))
          · rw [hhd]
            exact hcl
        · have hps : p ∈ h :: t := by
            rw [← hsurv]
            refine List.mem_filter.mpr ⟨hp, ?_⟩
            simpa using hcl
          exact ih4 p hps
      · rw [ih5, hacc_eq]
        rfl

/-! ## Claim C8 — the spatial thinning invariant -/

/-- C8: for every non-empty input and positive separation, the greedy
thinning terminates (it is a total function) and returns a subset of the
input in which retained points are pairwise at squared distance at least
`d2`, every input point is either retained or within the separation of a
retained point, and the first input point is always the first retained
point. `d2` stands for the square of the separation `d`, so the comparisons
are exactly those the code makes on Euclidean distances. -/
theorem C8_thinning_invariant (pts : List MeshPt) (p : MeshPt)
    (rest : List MeshPt) (d2 : ℚ) (hpts : pts = p :: rest) (hd2 : 0 < d2) :
    (∀ q ∈ getEquallySpacedElements pts d2, q ∈ pts) ∧
    List.Pairwise (fun a b => d2 ≤ sqDist a.coord b.coord)
      (getEquallySpacedElements pts d2) ∧
    (∀ q ∈ pts, q ∈ getEquallySpacedElements pts d2 ∨
      ∃ z ∈ getEquallySpacedElements pts d2, sqDist z.coord q.coord < d2) ∧
    (getEquallySpacedElements pts d2).head? = some p := by
  subst hpts
  obtain ⟨h1, h2, h3, h4, h5⟩ :=
    thinAux_spec d2 hd2 (p :: rest).length p.coord (p :: rest) [p]
      (le_refl _)
      ⟨p, [], rfl, rfl⟩
      (by intro q hq r hr; simp at hr)
      (List.pairwise_singleton _ _)
      (Or.inr ⟨p, List.mem_cons_self .., rfl⟩)
  have hg : getEquallySpacedElements (p :: rest) d2
      = thinAux d2 (p :: rest).length p.coord (p :: rest) [p] := rfl
  rw [hg]
  refine ⟨?_, h2, fun q hq => h4 q hq, ?_⟩
  · intro q hq
    rcases h1 q hq with hq1 | hq1
    · simp only [List.mem_singleton] at hq1
      exact hq1 ▸ List.mem_cons_self ..
    · exact hq1
  · rw [h5]
    rfl

/-- C8 witness: three one-dimensional points with squared separation `1`;
the kept list is pairwise separated and starts with the first input
point. -/
theorem C8_witness :
    List.Pairwise (fun a b => (1 : ℚ) ≤ sqDist a.coord b.coord)
        (getEquallySpacedElements
          [⟨0, [0]⟩, ⟨1, [10]⟩, ⟨2, [1 / 2]⟩] 1) ∧
      (getEquallySpacedElements
          [⟨0, [0]⟩, ⟨1, [10]⟩, ⟨2, [1 / 2]⟩] 1).head? = some ⟨0, [0]⟩ :=
  ⟨(C8_thinning_invariant [⟨0, [0]⟩, ⟨1, [10]⟩, ⟨2, [1 / 2]⟩] ⟨0, [0]⟩
      [⟨1, [10]⟩, ⟨2, [1 / 2]⟩] 1 rfl (by decide)).2.1,
    (C8_thinning_invariant [⟨0, [0]⟩, ⟨1, [10]⟩, ⟨2, [1 / 2]⟩] ⟨0, [0]⟩
      [⟨1, [10]⟩, ⟨2, [1 / 2]⟩] 1 rfl (by decide)).2.2.2⟩

/-- C2 witness for the amended statement at the value three. -/
theorem C2_witness :
    DistABC.uniform_dist (DistABC.constant 3) = none :=
  C2_constant_uniform_dist_returns_none 3

end Shamo
